import Mathlib

/-!
Verification of the GlowBit Orb extension library (orb.py, animations.py).

The Python source is shallowly embedded: rings and the orb topology become
Lean structures, the axis/ring index computations become recursive Lean
functions over `Nat`/`Int` (Python's `%` and `//` on a positive divisor agree
with `Int.emod`/`Int.ediv`), Python dicts used as accumulation buffers become
`Nat → Option _` maps, and Python float arithmetic in the animation engines is
modelled over `ℚ` (exact rational arithmetic; decimal literals such as 0.8 are
transcribed as the corresponding rationals).  Fallible operations (a raised
exception) are modelled with `Except PyError`.
-/

/-- One entry of `Orb.ring_map`: `{'start': idx, 'length': n}`. -/
structure OrbRing where
  start : Nat
  length : Nat
deriving DecidableEq, Repr

/-- Embeds `Orb._build_ring_map`: consecutive rings, each starting where the
previous one ended, beginning at `start` (the status-LED offset). -/
def buildRingMapFrom (start : Nat) : List Nat → List OrbRing
  | [] => []
  | c :: rest => ⟨start, c⟩ :: buildRingMapFrom (start + c) rest

/-- The configuration state of an `Orb` instance (ring counts outer→inner and
the number of reserved status LEDs before the ornament). -/
structure Orb where
  ringCounts : List Nat
  statusLeds : Nat
deriving DecidableEq, Repr

/-- Embeds `self.ring_map = self._build_ring_map()`. -/
def Orb.ringMap (o : Orb) : List OrbRing := buildRingMapFrom o.statusLeds o.ringCounts

/-- Embeds `self.outer_count = self.ring_counts[0] if self.ring_counts else 0`. -/
def Orb.outerCount (o : Orb) : Nat := o.ringCounts.headD 0

/-- Embeds `self.num_rings = len(self.ring_counts)`. -/
def Orb.numRings (o : Orb) : Nat := o.ringCounts.length

/-- The contribution of a single ring to an axis column, phrased as the
specification states it: a ring of length 1 is the shared center, included
exactly when `includeCenter` is true; any other ring contributes an element
iff `(k * count) % outerCount == 0`, at local index
`(k * count / outerCount) % count`. -/
def axisContrib (outerCount k : Nat) (includeCenter : Bool) (ring : OrbRing) : Option Nat :=
  if ring.length = 1 then
    if includeCenter then some ring.start else none
  else if (k * ring.length) % outerCount = 0 then
    some (ring.start + (k * ring.length / outerCount) % ring.length)
  else none

/-- Embeds the ring loop of `Orb._compute_axis_indices` (the `for ring_id, ring
in enumerate(self.ring_map)` loop appending to `indices`). -/
def computeAxisIndicesAux (outerCount k : Nat) (includeCenter : Bool) : List OrbRing → List Nat
  | [] => []
  | ring :: rest =>
    if ring.length = 1 then
      (if includeCenter then [ring.start] else []) ++
        computeAxisIndicesAux outerCount k includeCenter rest
    else if (k * ring.length) % outerCount = 0 then
      (ring.start + (k * ring.length / outerCount) % ring.length) ::
        computeAxisIndicesAux outerCount k includeCenter rest
    else
      computeAxisIndicesAux outerCount k includeCenter rest

/-- Embeds `Orb._compute_axis_indices(axis, include_center)`: guard on
`outer_count <= 0`, reduce the axis modulo `outer_count`, then walk the rings
outer→inner. -/
def Orb.computeAxisIndices (o : Orb) (axis : Int) (includeCenter : Bool) : List Nat :=
  if o.outerCount = 0 then []
  else computeAxisIndicesAux o.outerCount ((axis % (o.outerCount : Int)).toNat) includeCenter o.ringMap

/-- Specification-side restatement of the axis-column rule, written as the
claim words it: a `filterMap` of the per-ring contribution `axisContrib` over
the rings in outer→inner order, with the axis taken modulo `outer_count`. -/
def axisIndicesSpec (o : Orb) (axis : Int) (includeCenter : Bool) : List Nat :=
  o.ringMap.filterMap (axisContrib o.outerCount ((axis % (o.outerCount : Int)).toNat) includeCenter)

/-- Embeds `Orb.get_axis_indices` for a topology with `outer_count > 0` (the
only case in which the Python code does not raise): the cache lookup
`self._axis_cache.get(axis, [])` returns `_compute_axis_indices(axis)` because
`_build_axis_cache` populates every key in `range(outer_count)` and the looked
up key is already reduced modulo `outer_count`.  When `include_center` is
false the cached column has its last element dropped exactly when the
innermost ring has length 1. -/
def Orb.getAxisIndicesP (o : Orb) (k : Nat) (includeCenter : Bool) : List Nat :=
  let cached := computeAxisIndicesAux o.outerCount (k % o.outerCount) true o.ringMap
  if includeCenter then cached
  else if cached ≠ [] ∧ o.ringCounts.getLast? = some 1 then cached.dropLast
  else cached

/-- Python exceptions raised (or, per the specification's error taxonomy,
expected) by the embedded code paths.  `invalidTopologyError` exists only in
the specification's taxonomy; the code never constructs such an error. -/
inductive PyError where
  | zeroDivisionError
  | valueError
  | invalidTopologyError
deriving DecidableEq, Repr

/-- Embeds the `ring_counts` handling of `Orb.__init__` (no preset): a missing
(`None`) ring list raises `ValueError`; any provided list, the empty list
included, is accepted. -/
def orbInit (ringCounts : Option (List Nat)) (statusLeds : Nat) : Except PyError Orb :=
  match ringCounts with
  | none => .error .valueError
  | some cs => .ok ⟨cs, statusLeds⟩

/-- Embeds `Orb.get_axis_indices` including its failure mode: with
`outer_count == 0` the normalisation `int(axis) % self.outer_count` raises
`ZeroDivisionError` before anything else happens. -/
def Orb.getAxisIndicesE (o : Orb) (axis : Int) (includeCenter : Bool) : Except PyError (List Nat) :=
  if o.outerCount = 0 then .error .zeroDivisionError
  else .ok (o.getAxisIndicesP ((axis % (o.outerCount : Int)).toNat) includeCenter)

/-- Embeds `Orb.get_ring_indices`: out-of-range ring numbers give `[]`,
otherwise the contiguous range `[start, start + length)` of that ring. -/
def Orb.getRingIndices (o : Orb) (ringNumber : Int) : List Nat :=
  if ringNumber < 0 ∨ (o.numRings : Int) ≤ ringNumber then []
  else
    let ring := o.ringMap.getD ringNumber.toNat ⟨0, 0⟩
    (List.range ring.length).map (fun i => ring.start + i)

/-- The 'pico' preset topology `ring_counts=[24, 12, 6, 1]`, `status_leds=0`. -/
def picoOrb : Orb := ⟨[24, 12, 6, 1], 0⟩

/-- Abstract model of the external glowbit colour objects.  The glowbit driver
is outside this repository; its colour constructors (`self.red()`,
`self.rgbColour(r,g,b)`, …) are modelled as opaque-by-construction values of
this inductive type, injective and distinct as packed colours are. -/
inductive GlowColor where
  | red | green | blue | yellow | purple | cyan | white | black
  | rgbColour (r g b : Int)
deriving DecidableEq, Repr

/-- A Python value passed as a `colour` argument: an `(r,g,b)` tuple/list of
three ints, a string, or an already-built glowbit colour object. -/
inductive PyColor where
  | triple (r g b : Int)
  | name (s : String)
  | obj (c : GlowColor)
deriving DecidableEq, Repr

/-- Python's `str.lower()` (character-wise lowercasing; the recognised colour
names are plain ASCII). -/
def pyLower (s : String) : String := ⟨s.data.map Char.toLower⟩

/-- Python's `str.strip()`: leading and trailing whitespace removed. -/
def pyStrip (s : String) : String :=
  ⟨((s.data.dropWhile Char.isWhitespace).reverse.dropWhile Char.isWhitespace).reverse⟩

/-- The `color_map` dict of `Orb._color_to_obj`. -/
def orbColorMap : List (String × GlowColor) :=
  [("red", .red), ("green", .green), ("blue", .blue), ("yellow", .yellow),
   ("purple", .purple), ("cyan", .cyan), ("white", .white), ("black", .black)]

/-- Embeds `Orb._color_to_obj`: 3-tuples become `rgbColour`, recognised names
(stripped and lower-cased) map through `color_map`, and anything else —
including an unrecognised string — is returned unchanged. -/
def colorToObj (colour : PyColor) : PyColor :=
  match colour with
  | .triple r g b => .obj (.rgbColour r g b)
  | .name s =>
    match orbColorMap.lookup (pyLower (pyStrip s)) with
    | some g => .obj g
    | none => .name s
  | .obj g => .obj g

/-- The `color_map` dict of `CometAnimation._parse_color` (note: it has no
`black` entry). -/
def cometColorMap : List (String × (Int × Int × Int)) :=
  [("red", (255, 0, 0)), ("green", (0, 255, 0)), ("blue", (0, 0, 255)),
   ("yellow", (255, 255, 0)), ("purple", (128, 0, 128)), ("cyan", (0, 255, 255)),
   ("white", (255, 255, 255))]

/-- Embeds `CometAnimation._parse_color`: 3-tuples pass through, recognised
names map through the dict with `(128,128,128)` as the `.get` default, and any
other value falls back to `(128,128,128)`. -/
def parseColor (colour : PyColor) : Int × Int × Int :=
  match colour with
  | .triple r g b => (r, g, b)
  | .name s => (cometColorMap.lookup (pyLower s)).getD (128, 128, 128)
  | .obj _ => (128, 128, 128)

/-- The mutable state of a `CometAnimation` instance.  `speedIntervalRaw`
models `int(self.speed_s * 1000)` (the float multiplication truncated to an
int by Python's `int()`); all further timing arithmetic is exact integer
arithmetic as in the source. -/
structure CometState where
  ringIndices : List Nat
  clockwise : Bool
  tailLength : Nat
  speedIntervalRaw : Int
  easing : Bool
  colour : Int × Int × Int
  headPos : Int
  lastStepMs : Int
deriving DecidableEq, Repr

/-- Embeds `self.ring_len = len(self.ring_indices)`. -/
def CometState.ringLen (c : CometState) : Nat := c.ringIndices.length

/-- Embeds `CometAnimation.__init__` (with `t0` the `ticks_ms()` sample taken
at construction): `tail_length` is clamped to a minimum of 1 and the ring's
pixel indices come from `orb.get_ring_indices(ring_number)`. -/
def mkComet (orb : Orb) (ringNumber : Int) (colour : PyColor) (clockwise : Bool)
    (tailLength : Int) (speedRaw : Int) (startPos : Int) (easing : Bool)
    (t0 : Int) : CometState :=
  { ringIndices := orb.getRingIndices ringNumber
    clockwise := clockwise
    tailLength := (max 1 tailLength).toNat
    speedIntervalRaw := speedRaw
    easing := easing
    colour := parseColor colour
    headPos := startPos
    lastStepMs := t0 }

/-- One iteration of the advancing loop in `CometAnimation.step`:
`(head + 1) % ring_len` clockwise, `(head - 1) % ring_len` counter-clockwise
(Python `%`, i.e. `Int.emod`). -/
def cometAdvance (clockwise : Bool) (ringLen : Nat) (h : Int) : Int :=
  if clockwise then (h + 1) % (ringLen : Int) else (h - 1) % (ringLen : Int)

/-- The advancing loop of `CometAnimation.step` run `s` times. -/
def cometAdvanceN (clockwise : Bool) (ringLen : Nat) (h : Int) : Nat → Int
  | 0 => h
  | s + 1 => cometAdvance clockwise ringLen (cometAdvanceN clockwise ringLen h s)

/-- Embeds `CometAnimation.step()` with the current `ticks_ms()` sample passed
explicitly: returns the `(moved, new state)` pair.  `ticks_diff(now, last)` is
modelled as plain subtraction. -/
def CometState.step (c : CometState) (nowMs : Int) : Bool × CometState :=
  if c.ringLen = 0 then (false, c)
  else
    let elapsed := nowMs - c.lastStepMs
    let interval := if c.speedIntervalRaw ≤ 0 then 1 else c.speedIntervalRaw
    if interval ≤ elapsed then
      (true,
        { c with
          headPos := cometAdvanceN c.clockwise c.ringLen c.headPos (max 1 (elapsed / interval)).toNat
          lastStepMs := nowMs })
    else (false, c)

/-- The accumulation buffer of `step_comets`: a Python dict from absolute
pixel index to a 3-channel integer sum (`none` = key absent). -/
abbrev Accum := Nat → Option (Int × Int × Int)

/-- The dict with no keys. -/
def emptyAccum : Accum := fun _ => none

/-- Embeds the accumulation statement of `CometAnimation.render`: missing keys
are initialised to `[0,0,0]`, then each channel is incremented with plain
(unclamped) integer addition. -/
def Accum.addAt (a : Accum) (p : Nat) (v : Int × Int × Int) : Accum :=
  fun q =>
    if q = p then
      let cur := (a p).getD (0, 0, 0)
      some (cur.1 + v.1, cur.2.1 + v.2.1, cur.2.2 + v.2.2)
    else a q

/-- The channel triple stored for pixel `p` (`[0,0,0]` when absent). -/
def accumVal (a : Accum) (p : Nat) : Int × Int × Int := (a p).getD (0, 0, 0)

/-- Embeds `CometAnimation._smoothstep` over `ℚ`. -/
def smoothstep (t : ℚ) : ℚ :=
  if t ≤ 0 then 0
  else if 1 ≤ t then 1
  else t * t * (3 - 2 * t)

/-- Python `int()` applied to a rational value: truncation toward zero. -/
def pyInt (q : ℚ) : Int := if q < 0 then ⌈q⌉ else ⌊q⌋

/-- The trailing position computed in `CometAnimation.render` for tail offset
`t`: `head = head_pos % ring_len`, then `(head - t) % ring_len` clockwise or
`(head + t) % ring_len` counter-clockwise. -/
def trailPos (c : CometState) (t : Nat) : Nat :=
  let len : Int := (c.ringLen : Int)
  let head := c.headPos % len
  (if c.clockwise then (head - (t : Int)) % len else (head + (t : Int)) % len).toNat

/-- The absolute pixel written by `CometAnimation.render` at tail offset `t`
(`self.ring_indices[pos]`; the position is always in range when the ring is
non-empty). -/
def pixAt (c : CometState) (t : Nat) : Nat := c.ringIndices.getD (trailPos c t) 0

/-- The scaled channel triple added by `CometAnimation.render` at tail offset
`t`: brightness `1 - t / tail` with `tail = min(tail_length, ring_len)`,
optionally eased by `_smoothstep`, each channel scaled and truncated by
`int()`. -/
def contribOf (c : CometState) (t : Nat) : Int × Int × Int :=
  let tail := min c.tailLength c.ringLen
  let frac0 : ℚ := 1 - (t : ℚ) / (tail : ℚ)
  let frac := if c.easing then smoothstep frac0 else frac0
  (pyInt ((c.colour.1 : ℚ) * frac), pyInt ((c.colour.2.1 : ℚ) * frac),
    pyInt ((c.colour.2.2 : ℚ) * frac))

/-- Embeds `CometAnimation.render(accum)`: early return on an empty ring,
otherwise one additive update per tail offset `t` in `range(tail)`. -/
def CometState.render (c : CometState) (a : Accum) : Accum :=
  if c.ringLen = 0 then a
  else
    (List.range (min c.tailLength c.ringLen)).foldl
      (fun acc t => acc.addAt (pixAt c t) (contribOf c t)) a

/-- Claim-side restatement of the render rule exactly as claim C4 words it:
identical to the code's rule except that the brightness fraction divides by
`tail_length` itself rather than by `min(tail_length, ring_len)`. -/
def contribOfSpecC4 (c : CometState) (t : Nat) : Int × Int × Int :=
  let frac0 : ℚ := 1 - (t : ℚ) / (c.tailLength : ℚ)
  let frac := if c.easing then smoothstep frac0 else frac0
  (pyInt ((c.colour.1 : ℚ) * frac), pyInt ((c.colour.2.1 : ℚ) * frac),
    pyInt ((c.colour.2.2 : ℚ) * frac))

/-- The total contribution of one comet to pixel `p` in a single render pass:
the unclamped sum of its per-offset channel triples that land on `p`. -/
def CometState.contribAt (c : CometState) (p : Nat) : Int × Int × Int :=
  (((List.range (min c.tailLength c.ringLen)).filter
      (fun t => pixAt c t = p)).map (contribOf c)).sum

/-- The accumulation phase of `step_comets`: every comet renders into the
same fresh dict. -/
def renderAll (comets : List CometState) (a : Accum) : Accum :=
  comets.foldl (fun acc c => c.render acc) a

/-- The flush phase of `step_comets`: for every pixel present in the dict, the
colour written out is each channel saturated at 255
(`orb.rgbColour(min(255, r), min(255, g), min(255, b))`). -/
def flushColor (a : Accum) (p : Nat) : Option GlowColor :=
  (a p).map (fun v => GlowColor.rgbColour (min 255 v.1) (min 255 v.2.1) (min 255 v.2.2))

/-- A comet on ring 1 of a `[4,2,1]` topology (ring pixels `[4,5]`), white,
clockwise, tail length 4, no easing: a concrete instance whose ring is shorter
than its tail. -/
def cometShortRing : CometState :=
  mkComet ⟨[4, 2, 1], 0⟩ 1 (.triple 255 255 255) true 4 70 0 false 0

/-- A comet on the outer ring of the pico topology used as a concrete witness
input. -/
def cometPicoOuter : CometState :=
  mkComet picoOrb 0 (.name "blue") true 5 60 0 true 1000

/-- A comet constructed with an out-of-range ring number on the pico topology:
`get_ring_indices` returns `[]`, so its ring is empty. -/
def cometEmptyRing : CometState :=
  mkComet picoOrb 9 (.name "red") true 3 70 0 true 0

/-- One clockwise move of the walking axis index in `Orb.segment_by_axis`:
`j = (j + 1) % self.outer_count`. -/
def stepCW (n j : Nat) : Nat := (j + 1) % n

/-- One counter-clockwise move of the walking axis index in
`Orb.segment_by_axis`: `j = (j - 1) % self.outer_count` on Python ints. -/
def stepCCW (n j : Nat) : Nat := (((j : Int) - 1) % (n : Int)).toNat

/-- The `while j != k_op` walking loops of `Orb.segment_by_axis`, with an
explicit fuel bound.  The loops advance one residue per iteration and reach
`kop` within fewer than `n` steps (see the `walkAxes_*_mem` position lemmas),
so fuel `n` is never exhausted on the executed paths. -/
def walkAxes (kop : Nat) (next : Nat → Nat) : Nat → Nat → List Nat
  | _, 0 => []
  | j, fuel + 1 => if j = kop then [] else j :: walkAxes kop next (next j) fuel

/-- The nested `for pix in all_columns.get(j, [])` iteration: the
concatenation of the visited axes' columns in visiting order. -/
def gatherCols (col : Nat → List Nat) : List Nat → List Nat
  | [] => []
  | j :: rest => col j ++ gatherCols col rest

/-- The `seen`-set filtering of `Orb.segment_by_axis`: keep the first
occurrence of each pixel, skipping pixels already collected. -/
def dedupAppend (seen : List Nat) : List Nat → List Nat
  | [] => []
  | p :: rest => if p ∈ seen then dedupAppend seen rest else p :: dedupAppend (p :: seen) rest

/-- Embeds `Orb.segment_by_axis(axis, include_center)`: degenerate topologies
give two empty halves; otherwise the splitting axis `k` and its opposite
`k_op = (k + outer_count // 2) % outer_count` have their columns emptied, the
clockwise walk from `k+1` collects "above" and the counter-clockwise walk from
`k-1` collects "below", each deduplicated with its own seen set; the function
returns `(below, above)`. -/
def Orb.segmentByAxis (o : Orb) (axis : Int) (includeCenter : Bool) : List Nat × List Nat :=
  if o.outerCount ≤ 1 then ([], [])
  else
    let n := o.outerCount
    let k := (axis % (n : Int)).toNat
    let kop := (k + n / 2) % n
    let col : Nat → List Nat :=
      fun j => if j = k ∨ j = kop then [] else o.getAxisIndicesP j includeCenter
    let above := dedupAppend [] (gatherCols col (walkAxes kop (stepCW n) (stepCW n k) n))
    let below := dedupAppend [] (gatherCols col (walkAxes kop (stepCCW n) (stepCCW n k) n))
    (below, above)

/-- Proof-side coordinate: the clockwise distance from axis `k` to axis `j`
around a ring of `n` axes (equal to `(j - k) mod n` for `j, k < n`). -/
def axPos (n k j : Nat) : Nat := if k ≤ j then j - k else j + n - k

/-- The mutable state of a `FlameAnimation` instance: constructor parameters,
the precomputed pixel list and per-pixel `(col_idx, col_dist, ridx)` metadata
(a dict, modelled as an association list), and the continuously evolving
scalars.  Python floats are modelled over `ℚ`. -/
structure FlameState where
  axis : Nat
  baseColor : Int × Int × Int
  flickerStrength : ℚ
  flickerSpeed : ℚ
  gustMean : ℚ
  gustMagMax : ℚ
  gustSmooth : ℚ
  outerCount : Nat
  pixelList : List Nat
  pixelMeta : List (Nat × (Nat × Nat × Nat))
  maxRidx : Nat
  globalIntensity : ℚ
  noisePhase : ℚ
  bias : ℚ
  biasTarget : ℚ
  nextGustTime : ℚ
deriving DecidableEq, Repr

/-- Embeds `FlameAnimation._expovariate(mean)`, with the uniform sample `u`
(`random.random()`) and `math.log` passed explicitly; a non-positive sample is
replaced by `1e-10`. -/
def expovariate (flog : ℚ → ℚ) (u mean : ℚ) : ℚ :=
  -mean * flog (if u ≤ 0 then 1 / 10000000000 else u)

/-- The per-pixel colour computation of the `for pix in self.pixel_list` loop
in `FlameAnimation.step`, evaluated against the already-updated dynamic state
(`math.sin` passed explicitly; `round` is mathematical rounding, which agrees
with Python's round-half-to-even everywhere except exact half-integers). -/
def flamePixelColor (fsin : ℚ → ℚ) (st : FlameState) (pix : Nat) : Int × Int × Int :=
  let meta := (st.pixelMeta.lookup pix).getD (0, 0, 0)
  let colIdx := meta.1
  let colDist := meta.2.1
  let ridx := meta.2.2
  let angW0 : ℚ := if 0 < colDist then 1 / (1 + (colDist : ℚ) * (6 / 10)) else 1
  let angW : ℚ := max 0 (min 1 angW0)
  let radW0 : ℚ :=
    if 0 < st.maxRidx then
      5 / 10 + (6 / 10) * (1 - |(ridx : ℚ) / (st.maxRidx : ℚ) - 6 / 10|)
    else 1
  let radW : ℚ := max (2 / 100) (min 1 radW0)
  let cw := (((colIdx : Int) - (st.axis : Int)) % (st.outerCount : Int)).toNat
  let ccw := (((st.axis : Int) - (colIdx : Int)) % (st.outerCount : Int)).toNat
  let colSign : ℚ := if cw = ccw then 0 else if cw < ccw then 1 else -1
  let biasContrib := colSign * st.bias * angW
  let baseB0 : ℚ := max 0 (angW * radW + biasContrib * (5 / 10))
  let baseB : ℚ := max 0 (min (3 / 2) baseB0)
  let brightness0 := baseB * st.globalIntensity
  let micro := fsin (st.noisePhase * (71 / 10 + (ridx : ℚ) * (9 / 10) + (colDist : ℚ) * (6 / 10))
      + (pix : ℚ)) * (5 / 10) + 5 / 10 - 5 / 10
  let brightness1 := brightness0 +
    micro * ((18 / 100) * st.flickerStrength * (8 / 10 - (ridx : ℚ) / ((max 1 st.maxRidx : Nat) : ℚ)))
  let brightness := max 0 (min 2 brightness1)
  (max 0 (min 255 (round ((st.baseColor.1 : ℚ) * brightness))),
   max 0 (min 255 (round ((st.baseColor.2.1 : ℚ) * brightness))),
   max 0 (min 255 (round ((st.baseColor.2.2 : ℚ) * brightness))))

/-- Embeds `FlameAnimation.step(dt)`: noise-phase advance, first-order
low-pass of the global intensity, the wall-clock gust check (with the current
`ticks_ms()/1000` sample passed as `now` and the two `random.random()` draws
of a firing gust passed as `rnd1`, `rnd2`), bias smoothing, and the per-pixel
colour map computed from the updated state.  Returns the new state and the
pixel→colour mapping. -/
def flameStep (fsin fexp flog : ℚ → ℚ) (rnd1 rnd2 : ℚ) (st : FlameState)
    (dt now : ℚ) : FlameState × List (Nat × (Int × Int × Int)) :=
  let phase := st.noisePhase + dt * (8 / 10 + st.flickerSpeed * (16 / 10))
  let noise := fsin (phase * (37 / 10)) * (7 / 10) + fsin (phase * (131 / 10)) * (3 / 10)
  let targetIntensity := 1 + noise * (5 / 10) * st.flickerStrength
  let tau := max (1 / 1000) (1 / max (1 / 10) st.flickerSpeed)
  let alpha := 1 - fexp (-dt / tau)
  let intensity := st.globalIntensity + (targetIntensity - st.globalIntensity) * alpha
  let fired : Bool := st.nextGustTime ≤ now
  let biasTarget := if fired then (rnd1 * 2 - 1) * st.gustMagMax else st.biasTarget
  let nextGust :=
    if fired then now + expovariate flog rnd2 (max (1 / 1000) st.gustMean)
    else st.nextGustTime
  let bias :=
    if 0 < st.gustSmooth then
      st.bias + (biasTarget - st.bias) * (1 - fexp (-dt / max (1 / 10000) st.gustSmooth))
    else biasTarget
  let st' := { st with
    noisePhase := phase
    globalIntensity := intensity
    biasTarget := biasTarget
    nextGustTime := nextGust
    bias := bias }
  (st', st'.pixelList.map (fun pix => (pix, flamePixelColor fsin st' pix)))

/-- A concrete flame state (axis 0 of the pico topology, default parameters,
next gust at t = 5) used as witness input. -/
def flameW : FlameState :=
  { axis := 0
    baseColor := (255, 160, 64)
    flickerStrength := 45 / 100
    flickerSpeed := 1
    gustMean := 4
    gustMagMax := 9 / 10
    gustSmooth := 6 / 10
    outerCount := 24
    pixelList := [0, 24, 36, 42]
    pixelMeta := [(0, (0, 0, 0)), (24, (0, 0, 1)), (36, (0, 0, 2)), (42, (0, 0, 3))]
    maxRidx := 3
    globalIntensity := 1
    noisePhase := 1 / 2
    bias := 0
    biasTarget := 0
    nextGustTime := 5 }

-- ======================= theorems =======================

theorem computeAxisIndicesAux_eq_filterMap (n k : Nat) (ic : Bool) :
    ∀ rings : List OrbRing,
      computeAxisIndicesAux n k ic rings = rings.filterMap (axisContrib n k ic) := by
  intro rings
  induction rings with
  | nil => rfl
  | cons r rest ih =>
    simp only [computeAxisIndicesAux, axisContrib, List.filterMap_cons]
    by_cases h1 : r.length = 1
    · simp only [h1, if_pos rfl]
      cases ic <;> simp [ih]
    · simp only [if_neg h1]
      by_cases h2 : (k * r.length) % n = 0
      · simp [h2, ih]
      · simp [h2, ih]

/-- Claim C1: for every topology with at least one axis, the computed axis
column equals the specification's rule, ring by ring in outer→inner order:
a length-1 ring is the shared center, included (at its start index) exactly
when `include_center` is true and regardless of the axis; any other ring with
count `count` and offset `start` contributes an element iff
`(a * count) mod outer_count == 0` (with `a` reduced modulo `outer_count`),
namely the absolute index `start + (a * count / outer_count) mod count`. -/
theorem C1_axis_indices_matches_spec (o : Orb) (axis : Int) (ic : Bool)
    (h : 0 < o.outerCount) :
    o.computeAxisIndices axis ic = axisIndicesSpec o axis ic := by
  unfold Orb.computeAxisIndices axisIndicesSpec
  rw [if_neg (by omega)]
  exact computeAxisIndicesAux_eq_filterMap _ _ _ _

theorem C1_axis_indices_witness :
    0 < picoOrb.outerCount ∧
      picoOrb.computeAxisIndices 6 true = axisIndicesSpec picoOrb 6 true :=
  ⟨by decide, C1_axis_indices_matches_spec picoOrb 6 true (by decide)⟩

/-- Claim C2 counterexample: on the `[24,12,6,1]` topology, `axis_indices(6)`
does not contain a third-ring element.  The third ring has 6 elements, and
`6 * 6 = 36` is not divisible by 24, so that ring is skipped; the actual
result is `[6, 27, 42]`, not the claimed `[6, 27, 37, 42]`. -/
theorem C2_axis_indices_counterexample :
    picoOrb.getAxisIndicesE 6 true = .ok [6, 27, 42] ∧
      [6, 27, 42] ≠ [6, 27, 37, 42] := by
  constructor
  · rfl
  · decide

/-- Claim C2 (amended): on the `[24,12,6,1]` topology, `axis_indices(0)` is
exactly outer element 0, second-ring element 0, third-ring element 0 and the
center, i.e. `[0, 24, 36, 42]`; `axis_indices(6)` is outer element 6,
second-ring element 3 and the center, i.e. `[6, 27, 42]` — the third ring is
skipped because `6 * 6 mod 24 ≠ 0`. -/
theorem C2_axis_indices_pico :
    picoOrb.getAxisIndicesE 0 true = .ok [0, 24, 36, 42] ∧
      picoOrb.getAxisIndicesE 6 true = .ok [6, 27, 42] := by
  constructor
  · rfl
  · rfl

theorem int_emod_add_left (a b n : ℤ) : (a % n + b) % n = (a + b) % n :=
  Int.emod_add_emod a n b

theorem int_emod_sub_left (a b n : ℤ) : (a % n - b) % n = (a - b) % n := by
  rw [Int.sub_emod, Int.emod_emod_of_dvd _ dvd_rfl, ← Int.sub_emod]

theorem cometAdvanceN_eq (cw : Bool) (len : Nat) (h : Int) :
    ∀ s : Nat,
      cometAdvanceN cw len h (s + 1) =
        (h + (if cw then ((s : Int) + 1) else -((s : Int) + 1))) % (len : Int) := by
  intro s
  induction s with
  | zero =>
    cases cw <;> simp [cometAdvanceN, cometAdvance, sub_eq_add_neg]
  | succ m ih =>
    show cometAdvance cw len (cometAdvanceN cw len h (m + 1)) = _
    rw [ih]
    cases cw
    · show ((h + -((m : Int) + 1)) % (len : Int) - 1) % (len : Int) = _
      rw [int_emod_sub_left]
      congr 1
      push_cast
      ring
    · show ((h + ((m : Int) + 1)) % (len : Int) + 1) % (len : Int) = _
      rw [int_emod_add_left, if_pos rfl]
      congr 1
      push_cast
      ring

/-- Claim C3: for a comet on a non-empty ring, with `interval` the configured
step interval `int(speed_seconds * 1000)` floored to a minimum of 1: a `step`
with zero elapsed time returns false and changes nothing; a `step` with
elapsed time `e ≥ interval` returns true, advances the head by exactly
`e / interval` increments in the configured direction
(`+1 mod ring_len` clockwise, `-1 mod ring_len` counter-clockwise) and records
the new timestamp; in particular elapsed time of exactly one interval advances
the head by exactly 1. -/
theorem C3_comet_step_timing (c : CometState) (h : 0 < c.ringLen) :
    c.step c.lastStepMs = (false, c) ∧
      (∀ e : Int, max 1 c.speedIntervalRaw ≤ e →
        c.step (c.lastStepMs + e) =
          (true,
            { c with
              headPos := (c.headPos +
                  (if c.clockwise then e / max 1 c.speedIntervalRaw
                   else -(e / max 1 c.speedIntervalRaw))) % (c.ringLen : Int)
              lastStepMs := c.lastStepMs + e })) ∧
      c.step (c.lastStepMs + max 1 c.speedIntervalRaw) =
        (true,
          { c with
            headPos := (c.headPos + (if c.clockwise then 1 else -1)) % (c.ringLen : Int)
            lastStepMs := c.lastStepMs + max 1 c.speedIntervalRaw }) := by
  have hlen : ¬ c.ringLen = 0 := by omega
  have hiv : (if c.speedIntervalRaw ≤ 0 then (1 : Int) else c.speedIntervalRaw) =
      max 1 c.speedIntervalRaw := by
    split <;> omega
  have key : ∀ e : Int, max 1 c.speedIntervalRaw ≤ e →
      c.step (c.lastStepMs + e) =
        (true,
          { c with
            headPos := (c.headPos +
                (if c.clockwise then e / max 1 c.speedIntervalRaw
                 else -(e / max 1 c.speedIntervalRaw))) % (c.ringLen : Int)
            lastStepMs := c.lastStepMs + e }) := by
    intro e he
    have hmax1 : (1 : Int) ≤ max 1 c.speedIntervalRaw := le_max_left _ _
    unfold CometState.step
    rw [if_neg hlen, hiv]
    have helapsed : c.lastStepMs + e - c.lastStepMs = e := by ring
    rw [helapsed, if_pos he]
    have hq1 : (1 : Int) ≤ e / max 1 c.speedIntervalRaw := by
      rw [Int.le_ediv_iff_mul_le (by omega)]
      omega
    have hmx : max 1 (e / max 1 c.speedIntervalRaw) = e / max 1 c.speedIntervalRaw := by
      omega
    rw [hmx]
    obtain ⟨m, hm⟩ : ∃ m, (e / max 1 c.speedIntervalRaw).toNat = m + 1 :=
      ⟨(e / max 1 c.speedIntervalRaw).toNat - 1, by omega⟩
    rw [hm, cometAdvanceN_eq]
    have hcast : ((m : Int) + 1) = e / max 1 c.speedIntervalRaw := by omega
    rw [hcast]
  refine ⟨?_, key, ?_⟩
  · unfold CometState.step
    rw [if_neg hlen, hiv]
    rw [if_neg (by simp only [sub_self]; omega)]
  · have h2 := key (max 1 c.speedIntervalRaw) le_rfl
    rwa [Int.ediv_self (by omega : max 1 c.speedIntervalRaw ≠ 0)] at h2

theorem C3_comet_step_witness :
    0 < cometPicoOuter.ringLen ∧
      cometPicoOuter.step cometPicoOuter.lastStepMs = (false, cometPicoOuter) :=
  ⟨by decide, (C3_comet_step_timing cometPicoOuter (by decide)).1⟩

theorem accumVal_addAt_self (a : Accum) (p : Nat) (v : Int × Int × Int) :
    accumVal (a.addAt p v) p = accumVal a p + v := by
  obtain ⟨vx, vy, vz⟩ := v
  simp only [Accum.addAt, accumVal, if_pos rfl, Option.getD_some]
  generalize (a p).getD (0, 0, 0) = w
  obtain ⟨cx, cy, cz⟩ := w
  simp [Prod.mk_add_mk]

theorem accumVal_addAt_ne (a : Accum) (p q : Nat) (v : Int × Int × Int)
    (h : q ≠ p) : accumVal (a.addAt p v) q = accumVal a q := by
  simp only [Accum.addAt, accumVal, if_neg h]

theorem renderFold_val (c : CometState) :
    ∀ (ts : List Nat) (a : Accum) (p : Nat),
      accumVal (ts.foldl (fun acc t => acc.addAt (pixAt c t) (contribOf c t)) a) p =
        accumVal a p +
          ((ts.filter (fun t => pixAt c t = p)).map (contribOf c)).sum := by
  intro ts
  induction ts with
  | nil => intro a p; simp
  | cons t ts ih =>
    intro a p
    simp only [List.foldl_cons, List.filter_cons]
    by_cases hp : pixAt c t = p
    · rw [ih]
      simp [hp, accumVal_addAt_self, add_assoc]
    · rw [ih]
      rw [accumVal_addAt_ne a (pixAt c t) p _ (fun hh => hp hh.symm)]
      simp [hp]

theorem render_val (c : CometState) (a : Accum) (p : Nat) :
    accumVal (c.render a) p = accumVal a p + c.contribAt p := by
  unfold CometState.render CometState.contribAt
  by_cases h : c.ringLen = 0
  · rw [if_pos h]
    simp [h]
  · rw [if_neg h]
    exact renderFold_val c _ a p

theorem renderAll_val :
    ∀ (comets : List CometState) (a : Accum) (p : Nat),
      accumVal (renderAll comets a) p =
        accumVal a p + (comets.map (fun c : CometState => c.contribAt p)).sum := by
  intro comets
  induction comets with
  | nil => intro a p; simp [renderAll]
  | cons c cs ih =>
    intro a p
    show accumVal (renderAll cs (c.render a)) p = _
    rw [ih, render_val]
    simp [add_assoc]

/-- Claim C4 counterexample: on a comet whose ring (2 pixels) is shorter than
its tail (4), the code divides the brightness fraction by
`tail = min(tail_length, ring_len) = 2`, not by `tail_length = 4` as the claim
states.  At tail offset 1 the code contributes
`int(255 * (1 - 1/2)) = 127` to pixel 5, while the claim's formula
`int(255 * (1 - 1/4)) = 191` differs. -/
theorem C4_render_counterexample :
    contribOf cometShortRing 1 = (127, 127, 127) ∧
      contribOfSpecC4 cometShortRing 1 = (191, 191, 191) ∧
      accumVal (cometShortRing.render emptyAccum) 5 = (127, 127, 127) ∧
      ((127, 127, 127) : Int × Int × Int) ≠ (191, 191, 191) := by
  have hcol : cometShortRing.colour = (255, 255, 255) := rfl
  have htail : cometShortRing.tailLength = 4 := rfl
  have hlen : cometShortRing.ringLen = 2 := rfl
  have heas : cometShortRing.easing = false := rfl
  have hc1 : contribOf cometShortRing 1 = (127, 127, 127) := by
    simp only [contribOf, hcol, htail, hlen, heas]
    norm_num [pyInt, show (min 4 2 : ℕ) = 2 from rfl]
  have hspec : contribOfSpecC4 cometShortRing 1 = (191, 191, 191) := by
    simp only [contribOfSpecC4, hcol, htail, heas]
    norm_num [pyInt]
  refine ⟨hc1, hspec, ?_, by decide⟩
  have hacc : accumVal (cometShortRing.render emptyAccum) 5 =
      (0 + (contribOf cometShortRing 1).1, 0 + (contribOf cometShortRing 1).2.1,
        0 + (contribOf cometShortRing 1).2.2) := rfl
  rw [hacc, hc1]
  norm_num

/-- Claim C4 (amended): for every comet on a non-empty ring, `render` uses the
trailing position `(head - t) mod ring_len` clockwise and
`(head + t) mod ring_len` counter-clockwise (with `head = head_pos mod
ring_len`), and scales the base colour by the linear fraction
`1 - t / min(tail_length, ring_len)` — the divisor is the truncated tail, not
`tail_length` itself — optionally passed through the smoothstep curve
`3x² - 2x³` when easing is enabled; one additive accumulator update is made
per tail offset `t` in `[0, min(tail_length, ring_len))`. -/
theorem C4_render_tail (c : CometState) (h : 0 < c.ringLen) :
    (∀ t : Nat,
      trailPos c t =
        (if c.clockwise
          then (c.headPos % (c.ringLen : Int) - (t : Int)) % (c.ringLen : Int)
          else (c.headPos % (c.ringLen : Int) + (t : Int)) % (c.ringLen : Int)).toNat ∧
      contribOf c t =
        ((fun frac => (pyInt ((c.colour.1 : ℚ) * frac), pyInt ((c.colour.2.1 : ℚ) * frac),
            pyInt ((c.colour.2.2 : ℚ) * frac)))
          (if c.easing then smoothstep (1 - (t : ℚ) / ((min c.tailLength c.ringLen : Nat) : ℚ))
           else 1 - (t : ℚ) / ((min c.tailLength c.ringLen : Nat) : ℚ)))) ∧
    (∀ a : Accum,
      c.render a =
        (List.range (min c.tailLength c.ringLen)).foldl
          (fun acc t => acc.addAt (c.ringIndices.getD (trailPos c t) 0) (contribOf c t)) a) := by
  refine ⟨fun t => ⟨rfl, rfl⟩, fun a => ?_⟩
  unfold CometState.render
  rw [if_neg (by omega)]
  rfl

theorem C4_render_witness :
    0 < cometPicoOuter.ringLen ∧
      (∀ a : Accum,
        cometPicoOuter.render a =
          (List.range (min cometPicoOuter.tailLength cometPicoOuter.ringLen)).foldl
            (fun acc t =>
              acc.addAt (cometPicoOuter.ringIndices.getD (trailPos cometPicoOuter t) 0)
                (contribOf cometPicoOuter t)) a) :=
  ⟨by decide, (C4_render_tail cometPicoOuter (by decide)).2⟩

/-- Claim C8: over a whole compositing pass, the accumulation buffer holds the
exact unclamped integer sum of every comet's per-pixel contributions (two
overlapping comets therefore sum past 255 during accumulation), and the
per-channel saturation at 255 happens exactly once, at flush time, applied to
that exact sum. -/
theorem C8_accumulation_unclamped (comets : List CometState) (p : Nat) :
    accumVal (renderAll comets emptyAccum) p =
        (comets.map (fun c : CometState => c.contribAt p)).sum ∧
      flushColor (renderAll comets emptyAccum) p =
        if (renderAll comets emptyAccum p).isSome then
          some (GlowColor.rgbColour
            (min 255 ((comets.map (fun c : CometState => c.contribAt p)).sum).1)
            (min 255 ((comets.map (fun c : CometState => c.contribAt p)).sum).2.1)
            (min 255 ((comets.map (fun c : CometState => c.contribAt p)).sum).2.2))
        else none := by
  have h1 : accumVal (renderAll comets emptyAccum) p =
      (comets.map (fun c : CometState => c.contribAt p)).sum := by
    rw [renderAll_val]
    show (0, 0, 0) + _ = _
    rw [show ((0, 0, 0) : Int × Int × Int) = 0 from rfl, zero_add]
  refine ⟨h1, ?_⟩
  cases hc : renderAll comets emptyAccum p with
  | none => simp [flushColor, hc]
  | some v =>
    have hv : v = (comets.map (fun c : CometState => c.contribAt p)).sum := by
      rw [← h1]
      simp [accumVal, hc]
    simp [flushColor, hc, hv]

/-- Claim C10: a comet whose ring index list is empty (for instance built from
an out-of-range ring number, for which `get_ring_indices` returns `[]`) is
inert and safe: `step` returns false leaving the head position and timestamp
untouched, `render` leaves the accumulation buffer untouched, and the guarded
early returns mean no `% ring_len` is ever evaluated with a zero ring length. -/
theorem C10_empty_ring_safe (c : CometState) (h : c.ringIndices = [])
    (now : Int) (a : Accum) (o : Orb) (rn : Int)
    (hrn : rn < 0 ∨ (o.numRings : Int) ≤ rn) :
    c.step now = (false, c) ∧ c.render a = a ∧ o.getRingIndices rn = [] := by
  have hlen : c.ringLen = 0 := by simp [CometState.ringLen, h]
  refine ⟨?_, ?_, ?_⟩
  · unfold CometState.step
    rw [if_pos hlen]
  · unfold CometState.render
    rw [if_pos hlen]
  · unfold Orb.getRingIndices
    rw [if_pos hrn]

theorem C10_empty_ring_witness :
    cometEmptyRing.ringIndices = [] ∧
      (cometEmptyRing.step 0 = (false, cometEmptyRing) ∧
        cometEmptyRing.render emptyAccum = emptyAccum ∧
        picoOrb.getRingIndices 9 = []) :=
  ⟨by decide, C10_empty_ring_safe cometEmptyRing (by decide) 0 emptyAccum picoOrb 9 (by decide)⟩

/-- Claim C6 counterexample: the empty ring layout is accepted at
construction, and the first axis query then fails with `ZeroDivisionError`
(raised by `int(axis) % self.outer_count` with `outer_count == 0`) — an
unrelated arithmetic error, not an `InvalidTopologyError`/configuration error
as the claim states. -/
theorem C6_axis_query_error_counterexample :
    orbInit (some []) 0 = .ok ⟨[], 0⟩ ∧
      Orb.getAxisIndicesE ⟨[], 0⟩ 0 true = .error .zeroDivisionError ∧
      PyError.zeroDivisionError ≠ .invalidTopologyError ∧
      PyError.zeroDivisionError ≠ .valueError :=
  ⟨rfl, rfl, by decide, by decide⟩

/-- Claim C6 (amended): an absent (`None`) ring layout raises `ValueError` at
construction, but an empty ring layout is accepted at construction and every
axis query on it fails with `ZeroDivisionError` from the axis normalisation —
the query never returns a result, but the error is an ordinary arithmetic
error, not a dedicated topology/configuration error. -/
theorem C6_axis_query_error (o : Orb) (axis : Int) (ic : Bool) (s : Nat)
    (h : o.outerCount = 0) :
    orbInit none s = .error .valueError ∧
      o.getAxisIndicesE axis ic = .error .zeroDivisionError := by
  refine ⟨rfl, ?_⟩
  unfold Orb.getAxisIndicesE
  rw [if_pos h]

theorem C6_axis_query_witness :
    Orb.outerCount ⟨[], 0⟩ = 0 ∧
      (orbInit none 0 = .error .valueError ∧
        Orb.getAxisIndicesE ⟨[], 0⟩ 3 false = .error .zeroDivisionError) :=
  ⟨rfl, C6_axis_query_error ⟨[], 0⟩ 3 false 0 rfl⟩

/-- Claim C7 counterexample: for the unrecognised colour name "magenta", the
comet animation's parser does fall back to neutral gray `(128,128,128)`, but
`Orb._color_to_obj` passes the string through unchanged instead of yielding a
gray value — the claim is false for the Orb pixel-setting path. -/
theorem C7_color_fallback_counterexample :
    parseColor (.name "magenta") = (128, 128, 128) ∧
      colorToObj (.name "magenta") = .name "magenta" ∧
      PyColor.name "magenta" ≠ .obj (.rgbColour 128 128 128) :=
  ⟨by decide, by decide, by decide⟩

/-- Claim C7 (amended): for every string naming none of the recognised
colours, the comet animation's parser yields the neutral gray
`(128,128,128)`, while the Orb pixel-setting path (`_color_to_obj`) returns
the unrecognised string unchanged (to be treated downstream as if it were a
colour object) rather than substituting gray. -/
theorem C7_color_fallback (s : String)
    (h1 : cometColorMap.lookup (pyLower s) = none)
    (h2 : orbColorMap.lookup (pyLower (pyStrip s)) = none) :
    parseColor (.name s) = (128, 128, 128) ∧ colorToObj (.name s) = .name s := by
  constructor
  · simp [parseColor, h1]
  · simp [colorToObj, h2]

theorem C7_color_fallback_witness :
    cometColorMap.lookup (pyLower "magenta") = none ∧
      (parseColor (.name "magenta") = (128, 128, 128) ∧
        colorToObj (.name "magenta") = .name "magenta") :=
  ⟨by decide, C7_color_fallback "magenta" (by decide) (by decide)⟩

theorem axPos_lt {n k j : Nat} (hk : k < n) (hj : j < n) : axPos n k j < n := by
  unfold axPos
  split <;> omega

theorem axPos_inj {n k i j : Nat} (hk : k < n) (hi : i < n) (hj : j < n)
    (h : axPos n k i = axPos n k j) : i = j := by
  unfold axPos at h
  split at h <;> split at h <;> omega

theorem axPos_self {n k : Nat} : axPos n k k = 0 := by
  unfold axPos
  simp

theorem stepCW_eq {n j : Nat} (hn : 0 < n) (hj : j < n) :
    stepCW n j = if j + 1 = n then 0 else j + 1 := by
  unfold stepCW
  by_cases h : j + 1 = n
  · rw [if_pos h, h, Nat.mod_self]
  · rw [if_neg h, Nat.mod_eq_of_lt (by omega)]

theorem stepCCW_eq {n j : Nat} (hn : 0 < n) (hj : j < n) :
    stepCCW n j = if j = 0 then n - 1 else j - 1 := by
  unfold stepCCW
  by_cases h : j = 0
  · rw [if_pos h]
    subst h
    rw [Nat.cast_zero]
    have h1 : ((0 : Int) - 1) % (n : Int) = (n : Int) - 1 := by
      have h2 : ((0 : Int) - 1 + (n : Int) * 1) % (n : Int) = ((0 : Int) - 1) % (n : Int) :=
        Int.add_mul_emod_self_left _ _ _
      have h3 : (0 : Int) - 1 + (n : Int) * 1 = (n : Int) - 1 := by ring
      rw [h3] at h2
      rw [← h2]
      exact Int.emod_eq_of_lt (by omega) (by omega)
    rw [h1]
    omega
  · rw [if_neg h]
    have h1 : ((j : Int) - 1) % (n : Int) = (j : Int) - 1 :=
      Int.emod_eq_of_lt (by omega) (by omega)
    rw [h1]
    omega

theorem axPos_stepCW {n k j : Nat} (hn : 0 < n) (hk : k < n) (hj : j < n)
    (h : axPos n k j + 1 < n) : axPos n k (stepCW n j) = axPos n k j + 1 := by
  rw [stepCW_eq hn hj]
  unfold axPos at h ⊢
  by_cases hjn : j + 1 = n
  · rw [if_pos hjn]
    split at h <;> split <;> omega
  · rw [if_neg hjn]
    split at h <;> split <;> omega

theorem axPos_stepCCW {n k j : Nat} (hn : 0 < n) (hk : k < n) (hj : j < n)
    (h : 1 ≤ axPos n k j) : axPos n k (stepCCW n j) = axPos n k j - 1 := by
  rw [stepCCW_eq hn hj]
  unfold axPos at h ⊢
  by_cases hj0 : j = 0
  · rw [if_pos hj0]
    subst hj0
    split at h <;> split <;> omega
  · rw [if_neg hj0]
    split at h <;> split <;> omega

theorem axPos_kop {n k : Nat} (hn : 2 ≤ n) (hk : k < n) :
    axPos n k ((k + n / 2) % n) = n / 2 := by
  by_cases h : k + n / 2 < n
  · rw [Nat.mod_eq_of_lt h]
    unfold axPos
    split <;> omega
  · have h2 : (k + n / 2) % n = k + n / 2 - n := by
      rw [Nat.mod_eq_sub_mod (by omega), Nat.mod_eq_of_lt (by omega)]
    rw [h2]
    unfold axPos
    split <;> omega

theorem walkAxes_cw_mem {n k kop : Nat} (hn : 0 < n) (hk : k < n) (hkop : kop < n) :
    ∀ (fuel j : Nat), j < n → axPos n k j ≤ axPos n k kop →
      ∀ x ∈ walkAxes kop (stepCW n) j fuel,
        x < n ∧ axPos n k j ≤ axPos n k x ∧ axPos n k x < axPos n k kop := by
  intro fuel
  induction fuel with
  | zero =>
    intro j hj hle x hx
    simp [walkAxes] at hx
  | succ m ih =>
    intro j hj hle x hx
    unfold walkAxes at hx
    by_cases hjk : j = kop
    · rw [if_pos hjk] at hx
      simp at hx
    · rw [if_neg hjk] at hx
      have hlt : axPos n k j < axPos n k kop := by
        rcases Nat.lt_or_ge (axPos n k j) (axPos n k kop) with h | h
        · exact h
        · exact absurd (axPos_inj hk hj hkop (by omega)) hjk
      rcases List.mem_cons.mp hx with rfl | hx'
      · exact ⟨hj, le_rfl, hlt⟩
      · have hkopn : axPos n k kop < n := axPos_lt hk hkop
        have hstep : axPos n k (stepCW n j) = axPos n k j + 1 :=
          axPos_stepCW hn hk hj (by omega)
        have hstepn : stepCW n j < n := by
          unfold stepCW
          exact Nat.mod_lt _ hn
        have h3 := ih (stepCW n j) hstepn (by omega) x hx'
        exact ⟨h3.1, by omega, h3.2.2⟩

theorem walkAxes_ccw_mem {n k kop : Nat} (hn : 0 < n) (hk : k < n) (hkop : kop < n) :
    ∀ (fuel j : Nat), j < n → axPos n k kop ≤ axPos n k j →
      ∀ x ∈ walkAxes kop (stepCCW n) j fuel,
        x < n ∧ axPos n k kop < axPos n k x ∧ axPos n k x ≤ axPos n k j := by
  intro fuel
  induction fuel with
  | zero =>
    intro j hj hle x hx
    simp [walkAxes] at hx
  | succ m ih =>
    intro j hj hle x hx
    unfold walkAxes at hx
    by_cases hjk : j = kop
    · rw [if_pos hjk] at hx
      simp at hx
    · rw [if_neg hjk] at hx
      have hlt : axPos n k kop < axPos n k j := by
        rcases Nat.lt_or_ge (axPos n k kop) (axPos n k j) with h | h
        · exact h
        · exact absurd (axPos_inj hk hj hkop (by omega)) hjk
      rcases List.mem_cons.mp hx with rfl | hx'
      · exact ⟨hj, hlt, le_rfl⟩
      · have hstep : axPos n k (stepCCW n j) = axPos n k j - 1 :=
          axPos_stepCCW hn hk hj (by omega)
        have hstepn : stepCCW n j < n := by
          rw [stepCCW_eq hn hj]
          split <;> omega
        have h3 := ih (stepCCW n j) hstepn (by omega) x hx'
        exact ⟨h3.1, h3.2.1, by omega⟩

theorem axisContrib_ge_start {n k : Nat} {ic : Bool} {r : OrbRing} {x : Nat}
    (h : axisContrib n k ic r = some x) : r.start ≤ x := by
  unfold axisContrib at h
  split at h
  · split at h
    · injection h with h'
      omega
    · cases h
  · split at h
    · injection h with h'
      omega
    · cases h

theorem axisContrib_mem_range {n k : Nat} {ic : Bool} {r : OrbRing} {x : Nat}
    (hr : 1 ≤ r.length) (h : axisContrib n k ic r = some x) :
    r.start ≤ x ∧ x < r.start + r.length := by
  unfold axisContrib at h
  split at h
  · split at h
    · injection h with h'
      omega
    · cases h
  · split at h
    · injection h with h'
      have hlt : (k * r.length / n) % r.length < r.length := Nat.mod_lt _ (by omega)
      omega
    · cases h

theorem axisContrib_center_false {n k : Nat} {r : OrbRing} (h : r.length = 1) :
    axisContrib n k false r = none := by
  unfold axisContrib
  rw [if_pos h]
  rfl

theorem axisContrib_noncenter {n k : Nat} {ic : Bool} {r : OrbRing} (h : ¬ r.length = 1) :
    axisContrib n k ic r = axisContrib n k true r := by
  unfold axisContrib
  rw [if_neg h, if_neg h]

theorem axisContrib_false_some {n k : Nat} {r : OrbRing} {x : Nat}
    (h : axisContrib n k false r = some x) :
    r.length ≠ 1 ∧ (k * r.length) % n = 0 ∧ x = r.start + (k * r.length / n) % r.length := by
  unfold axisContrib at h
  split at h
  · simp at h
  · next hlen =>
    split at h
    · next hcond =>
      injection h with h'
      exact ⟨hlen, hcond, h'.symm⟩
    · cases h

theorem mem_axisFM_lower {n k : Nat} {ic : Bool} :
    ∀ (cs : List Nat) (s x : Nat),
      x ∈ (buildRingMapFrom s cs).filterMap (axisContrib n k ic) → s ≤ x := by
  intro cs
  induction cs with
  | nil =>
    intro s x hx
    simp [buildRingMapFrom] at hx
  | cons c cs ih =>
    intro s x hx
    simp only [buildRingMapFrom] at hx
    rw [List.filterMap_cons] at hx
    cases hcontrib : axisContrib n k ic ⟨s, c⟩ with
    | none =>
      rw [hcontrib] at hx
      have := ih (s + c) x hx
      omega
    | some v =>
      rw [hcontrib] at hx
      rcases List.mem_cons.mp hx with rfl | hx'
      · exact axisContrib_ge_start hcontrib
      · have := ih (s + c) x hx'
        omega

theorem axis_local_inj {n c k1 k2 : Nat} (hn : 0 < n) (hc : 0 < c)
    (hk1 : k1 < n) (hk2 : k2 < n)
    (hd1 : (k1 * c) % n = 0) (hd2 : (k2 * c) % n = 0)
    (hloc : (k1 * c / n) % c = (k2 * c / n) % c) : k1 = k2 := by
  have hdvd1 : n ∣ k1 * c := Nat.dvd_of_mod_eq_zero hd1
  have hdvd2 : n ∣ k2 * c := Nat.dvd_of_mod_eq_zero hd2
  have he1 : n * (k1 * c / n) = k1 * c := Nat.mul_div_cancel' hdvd1
  have he2 : n * (k2 * c / n) = k2 * c := Nat.mul_div_cancel' hdvd2
  obtain ⟨d, hd⟩ := (Nat.modEq_iff_dvd).mp hloc
  have hcast1 : (n : Int) * (k1 * c / n : Nat) = (k1 : Int) * c := by exact_mod_cast he1
  have hcast2 : (n : Int) * (k2 * c / n : Nat) = (k2 : Int) * c := by exact_mod_cast he2
  have h1 : ((k2 : Int) - k1) * c = (((k2 * c / n : Nat) : Int) - ((k1 * c / n : Nat) : Int)) * n := by
    rw [sub_mul, sub_mul, ← hcast1, ← hcast2]
    ring
  rw [hd] at h1
  have hkey : ((k2 : Int) - k1) * c = ((n : Int) * d) * c := by
    rw [h1]
    ring
  have hc0 : (c : Int) ≠ 0 := by
    omega
  have hfin : (k2 : Int) - k1 = (n : Int) * d := mul_right_cancel₀ hc0 hkey
  rcases lt_trichotomy d 0 with hdneg | rfl | hdpos
  · have hmul : (n : Int) * d ≤ (n : Int) * (-1) :=
      mul_le_mul_of_nonneg_left (by omega) (by omega)
    omega
  · omega
  · have hmul : (n : Int) * 1 ≤ (n : Int) * d :=
      mul_le_mul_of_nonneg_left (by omega) (by omega)
    omega

theorem axisFM_false_disjoint {n k1 k2 : Nat} (hn : 0 < n)
    (hk1 : k1 < n) (hk2 : k2 < n) (hne : k1 ≠ k2) :
    ∀ (cs : List Nat) (s x : Nat), (∀ c ∈ cs, 1 ≤ c) →
      x ∈ (buildRingMapFrom s cs).filterMap (axisContrib n k1 false) →
      x ∈ (buildRingMapFrom s cs).filterMap (axisContrib n k2 false) → False := by
  intro cs
  induction cs with
  | nil =>
    intro s x _ hx _
    simp [buildRingMapFrom] at hx
  | cons c cs ih =>
    intro s x hcs hx1 hx2
    have hc : 1 ≤ c := hcs c (List.mem_cons_self _ _)
    have hcs' : ∀ c' ∈ cs, 1 ≤ c' := fun c' hc' => hcs c' (List.mem_cons_of_mem _ hc')
    simp only [buildRingMapFrom] at hx1 hx2
    rw [List.filterMap_cons] at hx1 hx2
    cases hco1 : axisContrib n k1 false ⟨s, c⟩ with
    | none =>
      rw [hco1] at hx1
      cases hco2 : axisContrib n k2 false ⟨s, c⟩ with
      | none =>
        rw [hco2] at hx2
        exact ih (s + c) x hcs' hx1 hx2
      | some v2 =>
        rw [hco2] at hx2
        rcases List.mem_cons.mp hx2 with rfl | hx2'
        · have hup : x < s + c := (axisContrib_mem_range hc hco2).2
          have hlow := mem_axisFM_lower cs (s + c) x hx1
          omega
        · exact ih (s + c) x hcs' hx1 hx2'
    | some v1 =>
      rw [hco1] at hx1
      rcases List.mem_cons.mp hx1 with rfl | hx1'
      · cases hco2 : axisContrib n k2 false ⟨s, c⟩ with
        | none =>
          rw [hco2] at hx2
          have hup : x < s + c := (axisContrib_mem_range hc hco1).2
          have hlow := mem_axisFM_lower cs (s + c) x hx2
          omega
        | some v2 =>
          rw [hco2] at hx2
          rcases List.mem_cons.mp hx2 with heq | hx2'
          · obtain ⟨hlen1, hcond1, hval1⟩ := axisContrib_false_some hco1
            obtain ⟨hlen2, hcond2, hval2⟩ := axisContrib_false_some hco2
            dsimp only at hval1 hval2
            have hcpos : 0 < c := by omega
            refine hne (axis_local_inj hn hcpos hk1 hk2 hcond1 hcond2 ?_)
            omega
          · have hup : x < s + c := (axisContrib_mem_range hc hco1).2
            have hlow := mem_axisFM_lower cs (s + c) x hx2'
            omega
      · cases hco2 : axisContrib n k2 false ⟨s, c⟩ with
        | none =>
          rw [hco2] at hx2
          exact ih (s + c) x hcs' hx1' hx2
        | some v2 =>
          rw [hco2] at hx2
          rcases List.mem_cons.mp hx2 with rfl | hx2'
          · have hup : x < s + c := (axisContrib_mem_range hc hco2).2
            have hlow := mem_axisFM_lower cs (s + c) x hx1'
            omega
          · exact ih (s + c) x hcs' hx1' hx2'

theorem mem_axisFM_false_lt_center {n k : Nat} :
    ∀ (cs : List Nat) (s x : Nat), (∀ c ∈ cs, 1 ≤ c) → cs.getLast? = some 1 →
      x ∈ (buildRingMapFrom s cs).filterMap (axisContrib n k false) →
      x < s + cs.sum - 1 := by
  intro cs
  induction cs with
  | nil =>
    intro s x _ hlast _
    simp at hlast
  | cons c cs ih =>
    intro s x hcs hlast hx
    simp only [buildRingMapFrom] at hx
    rw [List.filterMap_cons] at hx
    cases cs with
    | nil =>
      have hc1 : c = 1 := by
        simp at hlast
        exact hlast
      rw [axisContrib_center_false (r := ⟨s, c⟩) hc1] at hx
      simp [buildRingMapFrom] at hx
    | cons c' cs' =>
      have hlast' : (c' :: cs').getLast? = some 1 := by
        rw [List.getLast?_cons_cons] at hlast
        exact hlast
      have hcs' : ∀ a ∈ c' :: cs', 1 ≤ a := fun a ha => hcs a (List.mem_cons_of_mem _ ha)
      have hsum : 1 ≤ (c' :: cs').sum := by
        have h1 := hcs c' (by simp)
        have h2 : (c' :: cs').sum = c' + cs'.sum := by simp
        omega
      have hS : (c :: c' :: cs').sum = c + (c' :: cs').sum := by simp
      cases hco : axisContrib n k false ⟨s, c⟩ with
      | none =>
        rw [hco] at hx
        have hrec := ih (s + c) x hcs' hlast' hx
        rw [hS]
        omega
      | some v =>
        rw [hco] at hx
        rcases List.mem_cons.mp hx with rfl | hx'
        · have hup : x < s + c :=
            (axisContrib_mem_range (hcs c (by simp)) hco).2
          rw [hS]
          omega
        · have hrec := ih (s + c) x hcs' hlast' hx'
          rw [hS]
          omega

theorem axisFM_true_decomp {n k : Nat} :
    ∀ (cs : List Nat) (s : Nat), (∀ c ∈ cs, 1 ≤ c) → (∀ c ∈ cs.dropLast, 2 ≤ c) →
      (buildRingMapFrom s cs).filterMap (axisContrib n k true) =
        (buildRingMapFrom s cs).filterMap (axisContrib n k false) ++
          (if cs.getLast? = some 1 then [s + cs.sum - 1] else []) := by
  intro cs
  induction cs with
  | nil =>
    intro s _ _
    simp [buildRingMapFrom]
  | cons c cs ih =>
    intro s hcs hcs2
    cases cs with
    | nil =>
      by_cases hc1 : c = 1
      · subst hc1
        simp only [buildRingMapFrom, List.filterMap_cons]
        rw [axisContrib_center_false (r := ⟨s, 1⟩) rfl]
        have htrue : axisContrib n k true ⟨s, 1⟩ = some s := by
          unfold axisContrib
          rw [if_pos rfl]
          rfl
        rw [htrue]
        simp [buildRingMapFrom]
      · have hcne : ¬ ((⟨s, c⟩ : OrbRing).length = 1) := hc1
        simp only [buildRingMapFrom, List.filterMap_cons]
        rw [← @axisContrib_noncenter n k false ⟨s, c⟩ hcne]
        have hl : ¬ ((c :: ([] : List Nat)).getLast? = some 1) := by
          simp [hc1]
        rw [if_neg hl]
        cases hco : axisContrib n k false ⟨s, c⟩ <;> simp [buildRingMapFrom]
    | cons c' cs' =>
      have hc2 : 2 ≤ c := hcs2 c (by simp)
      have hcne : ¬ ((⟨s, c⟩ : OrbRing).length = 1) := by
        show ¬ c = 1
        omega
      have heq : axisContrib n k true ⟨s, c⟩ = axisContrib n k false ⟨s, c⟩ :=
        (axisContrib_noncenter hcne).symm
      have hcs' : ∀ a ∈ c' :: cs', 1 ≤ a := fun a ha => hcs a (List.mem_cons_of_mem _ ha)
      have hcs2' : ∀ a ∈ (c' :: cs').dropLast, 2 ≤ a := by
        intro a ha
        apply hcs2
        have : (c :: c' :: cs').dropLast = c :: (c' :: cs').dropLast := rfl
        rw [this]
        exact List.mem_cons_of_mem _ ha
      have hrec := ih (s + c) hcs' hcs2'
      have hif : (if (c' :: cs').getLast? = some 1 then [s + c + (c' :: cs').sum - 1]
            else ([] : List Nat)) =
          (if (c :: c' :: cs').getLast? = some 1 then [s + (c :: c' :: cs').sum - 1] else []) := by
        rw [List.getLast?_cons_cons]
        by_cases hl : (c' :: cs').getLast? = some 1
        · rw [if_pos hl, if_pos hl]
          have harith : s + c + (c' :: cs').sum - 1 = s + (c :: c' :: cs').sum - 1 := by
            simp only [List.sum_cons]
            omega
          rw [harith]
        · rw [if_neg hl, if_neg hl]
      rw [show buildRingMapFrom s (c :: c' :: cs') =
            ⟨s, c⟩ :: buildRingMapFrom (s + c) (c' :: cs') from rfl]
      rw [List.filterMap_cons, List.filterMap_cons]
      rw [heq, hrec, hif]
      cases hco : axisContrib n k false ⟨s, c⟩ <;> simp

theorem getAxisIndicesP_true_eq (o : Orb) (j : Nat) :
    o.getAxisIndicesP j true =
      o.ringMap.filterMap (axisContrib o.outerCount (j % o.outerCount) true) := by
  show computeAxisIndicesAux o.outerCount (j % o.outerCount) true o.ringMap = _
  exact computeAxisIndicesAux_eq_filterMap _ _ _ _

theorem getAxisIndicesP_false_eq (o : Orb) (j : Nat)
    (h1 : ∀ c ∈ o.ringCounts, 1 ≤ c) (h2 : ∀ c ∈ o.ringCounts.dropLast, 2 ≤ c) :
    o.getAxisIndicesP j false =
      o.ringMap.filterMap (axisContrib o.outerCount (j % o.outerCount) false) := by
  show (if computeAxisIndicesAux o.outerCount (j % o.outerCount) true o.ringMap ≠ [] ∧
          o.ringCounts.getLast? = some 1
        then (computeAxisIndicesAux o.outerCount (j % o.outerCount) true o.ringMap).dropLast
        else computeAxisIndicesAux o.outerCount (j % o.outerCount) true o.ringMap) = _
  rw [computeAxisIndicesAux_eq_filterMap]
  have hdecomp : o.ringMap.filterMap (axisContrib o.outerCount (j % o.outerCount) true) =
      o.ringMap.filterMap (axisContrib o.outerCount (j % o.outerCount) false) ++
        (if o.ringCounts.getLast? = some 1
         then [o.statusLeds + o.ringCounts.sum - 1] else []) :=
    axisFM_true_decomp o.ringCounts o.statusLeds h1 h2
  by_cases hl : o.ringCounts.getLast? = some 1
  · rw [hdecomp, if_pos hl]
    rw [if_pos ⟨by simp, hl⟩]
    exact List.dropLast_concat
  · rw [hdecomp, if_neg hl, List.append_nil]
    rw [if_neg (fun h => hl h.2)]

theorem mem_dedupAppend : ∀ (l seen : List Nat) (x : Nat),
    x ∈ dedupAppend seen l → x ∈ l ∧ x ∉ seen := by
  intro l
  induction l with
  | nil =>
    intro seen x hx
    simp [dedupAppend] at hx
  | cons p l ih =>
    intro seen x hx
    unfold dedupAppend at hx
    by_cases hp : p ∈ seen
    · rw [if_pos hp] at hx
      have h := ih seen x hx
      exact ⟨List.mem_cons_of_mem _ h.1, h.2⟩
    · rw [if_neg hp] at hx
      rcases List.mem_cons.mp hx with rfl | hx'
      · exact ⟨List.mem_cons_self _ _, hp⟩
      · have h := ih (p :: seen) x hx'
        exact ⟨List.mem_cons_of_mem _ h.1, fun hs => h.2 (List.mem_cons_of_mem _ hs)⟩

theorem nodup_dedupAppend : ∀ (l seen : List Nat), (dedupAppend seen l).Nodup := by
  intro l
  induction l with
  | nil =>
    intro seen
    simp [dedupAppend]
  | cons p l ih =>
    intro seen
    unfold dedupAppend
    by_cases hp : p ∈ seen
    · rw [if_pos hp]
      exact ih seen
    · rw [if_neg hp]
      exact List.nodup_cons.mpr
        ⟨fun hmem => (mem_dedupAppend l (p :: seen) p hmem).2 (List.mem_cons_self _ _),
         ih (p :: seen)⟩

theorem mem_gatherCols : ∀ (js : List Nat) (col : Nat → List Nat) (x : Nat),
    x ∈ gatherCols col js → ∃ j ∈ js, x ∈ col j := by
  intro js
  induction js with
  | nil =>
    intro col x hx
    simp [gatherCols] at hx
  | cons j js ih =>
    intro col x hx
    unfold gatherCols at hx
    rcases List.mem_append.mp hx with h | h
    · exact ⟨j, List.mem_cons_self _ _, h⟩
    · obtain ⟨j', hj', hx'⟩ := ih col x h
      exact ⟨j', List.mem_cons_of_mem _ hj', hx'⟩

theorem segment_halves_spec (o : Orb) (k kop : Nat) (B A : List Nat)
    (h1 : ∀ c ∈ o.ringCounts, 1 ≤ c) (h2 : ∀ c ∈ o.ringCounts.dropLast, 2 ≤ c)
    (hn : 2 ≤ o.outerCount) (hk : k < o.outerCount)
    (hkop : kop = (k + o.outerCount / 2) % o.outerCount)
    (hB : B = dedupAppend [] (gatherCols
      (fun j => if j = k ∨ j = kop then [] else o.getAxisIndicesP j false)
      (walkAxes kop (stepCCW o.outerCount) (stepCCW o.outerCount k) o.outerCount)))
    (hA : A = dedupAppend [] (gatherCols
      (fun j => if j = k ∨ j = kop then [] else o.getAxisIndicesP j false)
      (walkAxes kop (stepCW o.outerCount) (stepCW o.outerCount k) o.outerCount))) :
    (∀ x ∈ B, x ∉ A) ∧ B.Nodup ∧ A.Nodup ∧
      (∀ x ∈ o.getAxisIndicesP k true, x ∉ B ∧ x ∉ A) ∧
      (∀ x ∈ o.getAxisIndicesP kop true, x ∉ B ∧ x ∉ A) := by
  have hnpos : 0 < o.outerCount := by omega
  have hkop_lt : kop < o.outerCount := by
    rw [hkop]
    exact Nat.mod_lt _ hnpos
  have hpos_kop : axPos o.outerCount k kop = o.outerCount / 2 := by
    rw [hkop]
    exact axPos_kop hn hk
  have hcw_start_lt : stepCW o.outerCount k < o.outerCount := by
    unfold stepCW
    exact Nat.mod_lt _ hnpos
  have hcw_start_pos : axPos o.outerCount k (stepCW o.outerCount k) = 1 := by
    have hstep := axPos_stepCW hnpos hk hk (by rw [axPos_self]; omega)
    rw [axPos_self] at hstep
    simpa using hstep
  have hccw_start_lt : stepCCW o.outerCount k < o.outerCount := by
    rw [stepCCW_eq hnpos hk]
    split <;> omega
  have hccw_start_pos : axPos o.outerCount k (stepCCW o.outerCount k) = o.outerCount - 1 := by
    rw [stepCCW_eq hnpos hk]
    by_cases hk0 : k = 0
    · rw [if_pos hk0]
      subst hk0
      unfold axPos
      split <;> omega
    · rw [if_neg hk0]
      unfold axPos
      split <;> omega
  have hmemA : ∀ x ∈ A, ∃ j, j < o.outerCount ∧ j ≠ k ∧ j ≠ kop ∧
      x ∈ o.getAxisIndicesP j false ∧ axPos o.outerCount k j < o.outerCount / 2 := by
    intro x hx
    rw [hA] at hx
    have hg := (mem_dedupAppend _ _ _ hx).1
    obtain ⟨j, hj, hxj⟩ := mem_gatherCols _ _ _ hg
    have hxj' : x ∈ (if j = k ∨ j = kop then [] else o.getAxisIndicesP j false) := hxj
    by_cases hjk : j = k ∨ j = kop
    · rw [if_pos hjk] at hxj'
      simp at hxj'
    · rw [if_neg hjk] at hxj'
      have hw := walkAxes_cw_mem hnpos hk hkop_lt o.outerCount (stepCW o.outerCount k)
        hcw_start_lt (by rw [hcw_start_pos, hpos_kop]; omega) j hj
      have hwpos := hw.2.2
      rw [hpos_kop] at hwpos
      exact ⟨j, hw.1, fun h => hjk (Or.inl h), fun h => hjk (Or.inr h), hxj', hwpos⟩
  have hmemB : ∀ x ∈ B, ∃ j, j < o.outerCount ∧ j ≠ k ∧ j ≠ kop ∧
      x ∈ o.getAxisIndicesP j false ∧ o.outerCount / 2 < axPos o.outerCount k j := by
    intro x hx
    rw [hB] at hx
    have hg := (mem_dedupAppend _ _ _ hx).1
    obtain ⟨j, hj, hxj⟩ := mem_gatherCols _ _ _ hg
    have hxj' : x ∈ (if j = k ∨ j = kop then [] else o.getAxisIndicesP j false) := hxj
    by_cases hjk : j = k ∨ j = kop
    · rw [if_pos hjk] at hxj'
      simp at hxj'
    · rw [if_neg hjk] at hxj'
      have hw := walkAxes_ccw_mem hnpos hk hkop_lt o.outerCount (stepCCW o.outerCount k)
        hccw_start_lt (by rw [hccw_start_pos, hpos_kop]; omega) j hj
      have hwpos := hw.2.1
      rw [hpos_kop] at hwpos
      exact ⟨j, hw.1, fun h => hjk (Or.inl h), fun h => hjk (Or.inr h), hxj', hwpos⟩
  have hFMdisj : ∀ j1 j2 x, j1 < o.outerCount → j2 < o.outerCount → j1 ≠ j2 →
      x ∈ o.getAxisIndicesP j1 false → x ∈ o.getAxisIndicesP j2 false → False := by
    intro j1 j2 x hj1 hj2 hne hx1 hx2
    rw [getAxisIndicesP_false_eq o j1 h1 h2, Nat.mod_eq_of_lt hj1] at hx1
    rw [getAxisIndicesP_false_eq o j2 h1 h2, Nat.mod_eq_of_lt hj2] at hx2
    exact axisFM_false_disjoint hnpos hj1 hj2 hne o.ringCounts o.statusLeds x h1 hx1 hx2
  have hexcl : ∀ kk, kk < o.outerCount → ∀ x ∈ o.getAxisIndicesP kk true,
      ∀ j, j < o.outerCount → j ≠ kk → x ∉ o.getAxisIndicesP j false := by
    intro kk hkk x hx j hj hne hxj
    rw [getAxisIndicesP_true_eq o kk, Nat.mod_eq_of_lt hkk] at hx
    have hrm : o.ringMap = buildRingMapFrom o.statusLeds o.ringCounts := rfl
    rw [hrm, axisFM_true_decomp o.ringCounts o.statusLeds h1 h2] at hx
    rcases List.mem_append.mp hx with hxf | hxc
    · have hxkk : x ∈ o.getAxisIndicesP kk false := by
        rw [getAxisIndicesP_false_eq o kk h1 h2, Nat.mod_eq_of_lt hkk, hrm]
        exact hxf
      exact hFMdisj j kk x hj hkk hne hxj hxkk
    · by_cases hl : o.ringCounts.getLast? = some 1
      · rw [if_pos hl] at hxc
        simp at hxc
        have hxj' : x ∈ (buildRingMapFrom o.statusLeds o.ringCounts).filterMap
            (axisContrib o.outerCount (j % o.outerCount) false) := by
          rw [← hrm, ← getAxisIndicesP_false_eq o j h1 h2]
          exact hxj
        have hlt := mem_axisFM_false_lt_center o.ringCounts o.statusLeds x h1 hl hxj'
        omega
      · rw [if_neg hl] at hxc
        simp at hxc
  refine ⟨?_, ?_, ?_, ?_, ?_⟩
  · intro x hxB hxA
    obtain ⟨j1, hj1, _, _, hxj1, hpos1⟩ := hmemB x hxB
    obtain ⟨j2, hj2, _, _, hxj2, hpos2⟩ := hmemA x hxA
    have hne12 : j1 ≠ j2 := by
      intro h
      rw [h] at hpos1
      omega
    exact hFMdisj j1 j2 x hj1 hj2 hne12 hxj1 hxj2
  · rw [hB]
    exact nodup_dedupAppend _ _
  · rw [hA]
    exact nodup_dedupAppend _ _
  · intro x hx
    constructor
    · intro hxB
      obtain ⟨j, hj, hjk, _, hxj, _⟩ := hmemB x hxB
      exact hexcl k hk x hx j hj hjk hxj
    · intro hxA
      obtain ⟨j, hj, hjk, _, hxj, _⟩ := hmemA x hxA
      exact hexcl k hk x hx j hj hjk hxj
  · intro x hx
    constructor
    · intro hxB
      obtain ⟨j, hj, _, hjkop, hxj, _⟩ := hmemB x hxB
      exact hexcl kop hkop_lt x hx j hj hjkop hxj
    · intro hxA
      obtain ⟨j, hj, _, hjkop, hxj, _⟩ := hmemA x hxA
      exact hexcl kop hkop_lt x hx j hj hjkop hxj

/-- Claim C5: for every valid topology (every ring non-empty, and every ring
other than the innermost of size at least 2 — per the data model a length-1
ring is the shared center and is innermost) and every splitting axis,
`segment_by_axis` returns two sequences `(below, above)` that are disjoint
from each other, neither containing any pixel index belonging to the
splitting axis or to its opposite axis, each free of duplicates; and when
`outer_count ≤ 1` both sequences are empty. -/
theorem C5_segment_by_axis_partition (o : Orb) (axis : Int)
    (h1 : ∀ c ∈ o.ringCounts, 1 ≤ c) (h2 : ∀ c ∈ o.ringCounts.dropLast, 2 ≤ c) :
    (∀ x ∈ (o.segmentByAxis axis false).1, x ∉ (o.segmentByAxis axis false).2) ∧
      (o.segmentByAxis axis false).1.Nodup ∧
      (o.segmentByAxis axis false).2.Nodup ∧
      (∀ x ∈ o.getAxisIndicesP ((axis % (o.outerCount : Int)).toNat) true,
        x ∉ (o.segmentByAxis axis false).1 ∧ x ∉ (o.segmentByAxis axis false).2) ∧
      (∀ x ∈ o.getAxisIndicesP
          (((axis % (o.outerCount : Int)).toNat + o.outerCount / 2) % o.outerCount) true,
        x ∉ (o.segmentByAxis axis false).1 ∧ x ∉ (o.segmentByAxis axis false).2) ∧
      (o.outerCount ≤ 1 → o.segmentByAxis axis false = ([], [])) := by
  by_cases hn : o.outerCount ≤ 1
  · have hseg : o.segmentByAxis axis false = ([], []) := by
      unfold Orb.segmentByAxis
      rw [if_pos hn]
    refine ⟨?_, ?_, ?_, ?_, ?_, fun _ => hseg⟩ <;> simp [hseg]
  · have hn2 : 2 ≤ o.outerCount := by omega
    have hK : (axis % (o.outerCount : Int)).toNat < o.outerCount := by
      have h0 : (0 : Int) < (o.outerCount : Int) := by omega
      have ha := Int.emod_nonneg axis (by omega : (o.outerCount : Int) ≠ 0)
      have hb := Int.emod_lt_of_pos axis h0
      omega
    have hB : (o.segmentByAxis axis false).1 =
        dedupAppend [] (gatherCols
          (fun j => if j = (axis % (o.outerCount : Int)).toNat ∨
              j = ((axis % (o.outerCount : Int)).toNat + o.outerCount / 2) % o.outerCount
            then [] else o.getAxisIndicesP j false)
          (walkAxes (((axis % (o.outerCount : Int)).toNat + o.outerCount / 2) % o.outerCount)
            (stepCCW o.outerCount)
            (stepCCW o.outerCount ((axis % (o.outerCount : Int)).toNat)) o.outerCount)) := by
      unfold Orb.segmentByAxis
      rw [if_neg hn]
    have hA : (o.segmentByAxis axis false).2 =
        dedupAppend [] (gatherCols
          (fun j => if j = (axis % (o.outerCount : Int)).toNat ∨
              j = ((axis % (o.outerCount : Int)).toNat + o.outerCount / 2) % o.outerCount
            then [] else o.getAxisIndicesP j false)
          (walkAxes (((axis % (o.outerCount : Int)).toNat + o.outerCount / 2) % o.outerCount)
            (stepCW o.outerCount)
            (stepCW o.outerCount ((axis % (o.outerCount : Int)).toNat)) o.outerCount)) := by
      unfold Orb.segmentByAxis
      rw [if_neg hn]
    have hmain := segment_halves_spec o ((axis % (o.outerCount : Int)).toNat)
      (((axis % (o.outerCount : Int)).toNat + o.outerCount / 2) % o.outerCount)
      ((o.segmentByAxis axis false).1) ((o.segmentByAxis axis false).2)
      h1 h2 hn2 hK rfl hB hA
    exact ⟨hmain.1, hmain.2.1, hmain.2.2.1, hmain.2.2.2.1, hmain.2.2.2.2,
      fun h => absurd h hn⟩

theorem C5_segment_witness :
    (∀ c ∈ picoOrb.ringCounts, 1 ≤ c) ∧
      ((∀ x ∈ (picoOrb.segmentByAxis 0 false).1, x ∉ (picoOrb.segmentByAxis 0 false).2) ∧
        (picoOrb.segmentByAxis 0 false).1.Nodup ∧
        (picoOrb.segmentByAxis 0 false).2.Nodup ∧
        (∀ x ∈ picoOrb.getAxisIndicesP (((0 : Int) % (picoOrb.outerCount : Int)).toNat) true,
          x ∉ (picoOrb.segmentByAxis 0 false).1 ∧ x ∉ (picoOrb.segmentByAxis 0 false).2) ∧
        (∀ x ∈ picoOrb.getAxisIndicesP
            ((((0 : Int) % (picoOrb.outerCount : Int)).toNat + picoOrb.outerCount / 2) %
              picoOrb.outerCount) true,
          x ∉ (picoOrb.segmentByAxis 0 false).1 ∧ x ∉ (picoOrb.segmentByAxis 0 false).2) ∧
        (picoOrb.outerCount ≤ 1 → picoOrb.segmentByAxis 0 false = ([], []))) :=
  ⟨by decide, C5_segment_by_axis_partition picoOrb 0 (by decide) (by decide)⟩

/-- Claim C9: with `dt = 0` and the wall-clock gust check not firing at either
call (`now < next_gust_time`), two successive `step(0)` calls leave the noise
phase, global intensity and wind bias unchanged (indeed the entire dynamic
state is unchanged) and return equal pixel-to-colour mappings — for any
exp/sin/log models with `exp 0 = 1` and any random samples.  The side
condition `0 < gust_smooth ∨ bias = bias_target` is an invariant of every
constructed flame: the constructor sets both bias fields to 0, and with
`gust_smooth ≤ 0` every step snaps the bias to its target. -/
theorem C9_flame_zero_dt (fsin fexp flog : ℚ → ℚ) (r1 r2 r1' r2' : ℚ)
    (st : FlameState) (now1 now2 : ℚ)
    (hexp : fexp 0 = 1)
    (h1 : now1 < st.nextGustTime) (h2 : now2 < st.nextGustTime)
    (hb : 0 < st.gustSmooth ∨ st.bias = st.biasTarget) :
    (flameStep fsin fexp flog r1 r2 st 0 now1).1 = st ∧
      flameStep fsin fexp flog r1' r2' st 0 now2 =
        (st, (flameStep fsin fexp flog r1 r2 st 0 now1).2) := by
  have key : ∀ (ra rb now : ℚ), now < st.nextGustTime →
      flameStep fsin fexp flog ra rb st 0 now =
        (st, st.pixelList.map (fun pix => (pix, flamePixelColor fsin st pix))) := by
    intro ra rb now hnow
    obtain ⟨ax, bc, fs, fsp, gm, gmm, gs, oc, pl, pm, mr, gi, np, bi, bt, ng⟩ := st
    dsimp only at hnow hb
    rcases hb with hs | hbe
    · unfold flameStep
      simp only [decide_eq_false (not_le.mpr hnow), Bool.false_eq_true, if_false,
        zero_mul, add_zero, neg_zero, zero_div, hexp, sub_self, mul_zero]
      rw [if_pos hs]
    · by_cases hs : (0 : ℚ) < gs
      · unfold flameStep
        simp only [decide_eq_false (not_le.mpr hnow), Bool.false_eq_true, if_false,
          zero_mul, add_zero, neg_zero, zero_div, hexp, sub_self, mul_zero]
        rw [if_pos hs]
      · unfold flameStep
        simp only [decide_eq_false (not_le.mpr hnow), Bool.false_eq_true, if_false,
          zero_mul, add_zero, neg_zero, zero_div, hexp, sub_self, mul_zero]
        rw [if_neg hs, ← hbe]
  constructor
  · rw [key r1 r2 now1 h1]
  · rw [key r1' r2' now2 h2, key r1 r2 now1 h1]

theorem C9_flame_zero_dt_witness :
    (1 : ℚ) < flameW.nextGustTime ∧
      ((flameStep (fun _ => 0) (fun _ => 1) (fun _ => 0) 0 0 flameW 0 1).1 = flameW ∧
        flameStep (fun _ => 0) (fun _ => 1) (fun _ => 0) 0 0 flameW 0 2 =
          (flameW, (flameStep (fun _ => 0) (fun _ => 1) (fun _ => 0) 0 0 flameW 0 1).2)) :=
  ⟨by norm_num [flameW],
   C9_flame_zero_dt (fun _ => 0) (fun _ => 1) (fun _ => 0) 0 0 0 0 flameW 1 2 rfl
     (by norm_num [flameW]) (by norm_num [flameW]) (Or.inl (by norm_num [flameW]))⟩
